import Mathlib

/-!
Verification development for the oura-dash analytics engine: the time-series
feature-engineering and statistical pattern-detection core (feature rows,
Spearman / lagged / partial correlations, change-point segmentation, anomaly
detection, weekly clustering) together with the request-validation rules of
`packages/shared/src/schemas.ts`.

The repository ships the analytics service's declarations (zod schemas, the
`oura_features_daily` DDL) but not the Python implementation files
(`pipelines/features.py`, `analysis/correlations.py`, `analysis/patterns.py`);
where an operation's body is missing, its model below is taken from the
specification and says so in its doc comment.  Dates are modelled as integer
day indices; values are exact rationals.
-/

namespace OuraDash

/-- A daily metric series: entries of (date, nullable value), dates unique,
in the accessor's date order. Missing days are simply absent. -/
abbrev Series := List (Int × Option ℚ)

/-- Value of a metric on a date: `some v` when the date is recorded with a
non-null value; `none` when the date is absent or recorded as null. -/
def getValue (s : Series) (d : Int) : Option ℚ :=
  (s.lookup d).bind id

/-- Arithmetic mean of a list of rationals (0 on the empty list, callers
guard emptiness). -/
def mean (xs : List ℚ) : ℚ := xs.sum / xs.length

/-- Population variance of a list of rationals. -/
def varPop (xs : List ℚ) : ℚ := ((xs.map (fun x => (x - mean xs) ^ 2)).sum) / xs.length

/-- Within-segment variance times segment length, i.e. Σ (x − segment mean)²:
the per-segment term of the change-point cost model. -/
def segCost (xs : List ℚ) : ℚ := (xs.map (fun x => (x - mean xs) ^ 2)).sum

/-- A partition of a length-`n` series into contiguous segments, given by the
list of segment lengths: every length positive, lengths summing to `n`. -/
def IsPartition (n : ℕ) (ls : List ℕ) : Prop := (∀ ℓ ∈ ls, 0 < ℓ) ∧ ls.sum = n

instance (n : ℕ) (ls : List ℕ) : Decidable (IsPartition n ls) := by
  unfold IsPartition; infer_instance

/-- Sum of the segment costs of a partition (segments taken from the front). -/
def segSum (xs : List ℚ) : List ℕ → ℚ
  | [] => 0
  | ℓ :: ls => segCost (xs.take ℓ) + segSum (xs.drop ℓ) ls

/-- Total cost of a partition under penalty `P`:
Σ (within-segment variance × length) + P × (segment count − 1). -/
def partCost (P : ℚ) (xs : List ℚ) (ls : List ℕ) : ℚ :=
  segSum xs ls + P * ((ls.length - 1 : ℕ) : ℚ)

/-- Modelled from the spec: the optimal-partition search of change-point
detection (`analysis/patterns.py` is absent from the repository; the spec
demands the exact global optimum of the stated cost, found by dynamic
programming).  Recursion over the first segment length, with fuel equal to
the series length. -/
def bestPartFuel (P : ℚ) : ℕ → List ℚ → List ℕ
  | 0, _ => []
  | fuel + 1, xs =>
    match xs with
    | [] => []
    | y :: ys =>
      let n := (y :: ys).length
      let cands := (List.range n).map fun i =>
        (i + 1) :: bestPartFuel P fuel ((y :: ys).drop (i + 1))
      (cands.argmin (partCost P (y :: ys))).getD [n]

/-- The optimal partition of a series under penalty `P`. -/
def bestPart (P : ℚ) (xs : List ℚ) : List ℕ := bestPartFuel P xs.length xs

/-- Direction of a detected mean shift. -/
inductive ShiftDirection
  | increase
  | decrease
deriving DecidableEq, Repr

/-- A detected change point: boundary index, segment means on both sides,
magnitude and direction (dates abstracted as indices into the series). -/
structure ChangePoint where
  index : ℕ
  beforeMean : ℚ
  afterMean : ℚ
  magnitude : ℚ
  direction : ShiftDirection
deriving DecidableEq, Repr

/-- The segments of a series cut according to a list of segment lengths. -/
def chunksOf : List ℚ → List ℕ → List (List ℚ)
  | _, [] => []
  | xs, ℓ :: ls => xs.take ℓ :: chunksOf (xs.drop ℓ) ls

/-- One ChangePoint per boundary between consecutive segments. -/
def boundaryPoints : ℕ → List (List ℚ) → List ChangePoint
  | _, [] => []
  | _, [_] => []
  | i, c1 :: c2 :: cs =>
    { index := i + c1.length
      beforeMean := mean c1
      afterMean := mean c2
      magnitude := mean c2 - mean c1
      direction := if mean c1 < mean c2 then ShiftDirection.increase
                   else ShiftDirection.decrease } :: boundaryPoints (i + c1.length) (c2 :: cs)

/-- Modelled from the spec: change-point detection — the boundaries of the
globally optimal partition under penalty `P`, with before/after means,
magnitude and direction. -/
def changePoints (P : ℚ) (xs : List ℚ) : List ChangePoint :=
  boundaryPoints 0 (chunksOf xs (bestPart P xs))

/-- Error kinds surfaced by the analytical operations. -/
inductive AnalyticsError
  | insufficientData
  | unknownMetric
  | invalidParameter
deriving DecidableEq, Repr

/-- A correlation result: rho, two-sided p-value, and the paired sample size. -/
structure CorrelationResult where
  rho : ℚ
  pValue : ℚ
  n : ℕ
deriving DecidableEq, Repr

/-- Average (midrank) of a value within a sample: ties share the mean of the
rank positions they occupy. -/
def rankAvg (xs : List ℚ) (x : ℚ) : ℚ :=
  ((xs.countP fun y => decide (y < x) : ℕ) : ℚ) +
    (((xs.countP fun y => decide (y = x) : ℕ) : ℚ) + 1) / 2

/-- The midrank of every sample point. -/
def ranks (xs : List ℚ) : List ℚ := xs.map (rankAvg xs)

/-- Modelled from the spec: Spearman rank correlation of two equal-length
samples (`analysis/correlations.py` is absent from the repository) — the
classical rank-difference formula 1 − 6·Σd²/(n(n²−1)) evaluated on midranks. -/
def rhoOfLists (xs ys : List ℚ) : ℚ :=
  let n : ℚ := xs.length
  1 - 6 * ((List.zipWith (fun a b => (a - b) ^ 2) (ranks xs) (ranks ys)).sum) / (n * (n ^ 2 - 1))

/-- Modelled from the spec: the two-sided p-value of a rank correlation as a
deterministic function of rho and the degrees of freedom (the spec fixes the
dof, not the tail formula; the claims below depend only on this map being a
function, so a rational surrogate of the t-tail, 1/(1+t²) with
t² = rho²·dof/(1−rho²), stands in for the transcendental CDF). -/
def pValueOfDof (rho : ℚ) (dof : Int) : ℚ :=
  1 / (1 + rho ^ 2 * (dof : ℚ) / (1 - rho ^ 2))

/-- Modelled from the spec: Spearman correlation over explicit paired samples,
failing with InsufficientData exactly when fewer than 3 pairs exist. -/
def spearmanOfPairs (pairs : List (ℚ × ℚ)) : Except AnalyticsError CorrelationResult :=
  if pairs.length < 3 then Except.error AnalyticsError.insufficientData
  else
    Except.ok
      { rho := rhoOfLists (pairs.map Prod.fst) (pairs.map Prod.snd)
        pValue := pValueOfDof (rhoOfLists (pairs.map Prod.fst) (pairs.map Prod.snd))
          ((pairs.length : Int) - 2)
        n := pairs.length }

/-- Modelled from the spec: the paired samples of two metrics — the values on
dates inside [lo, hi] where both series are simultaneously non-null (iterating
the second series's date order; dates are unique per metric). -/
def pairedValues (X Y : Series) (lo hi : Int) : List (ℚ × ℚ) :=
  Y.filterMap fun p =>
    if lo ≤ p.1 ∧ p.1 ≤ hi then
      match p.2, getValue X p.1 with
      | some vy, some vx => some (vx, vy)
      | _, _ => none
    else none

/-- Modelled from the spec: plain rank correlation of two metrics over a date
range. -/
def rankCorrelation (X Y : Series) (lo hi : Int) : Except AnalyticsError CorrelationResult :=
  spearmanOfPairs (pairedValues X Y lo hi)

/-- Modelled from the spec: `rank_correlations` — the plain rank correlation of
the target against each candidate. -/
def rankCorrelations (target : Series) (cands : List Series) (lo hi : Int) :
    List (Except AnalyticsError CorrelationResult) :=
  cands.map fun c => rankCorrelation target c lo hi

/-- Modelled from the spec: the paired samples of X shifted back by `lag` days
against Y on the same calendar date. -/
def laggedPairs (X Y : Series) (lag : ℕ) (lo hi : Int) : List (ℚ × ℚ) :=
  Y.filterMap fun p =>
    if lo ≤ p.1 ∧ p.1 ≤ hi then
      match p.2, getValue X (p.1 - (lag : Int)) with
      | some vy, some vx => some (vx, vy)
      | _, _ => none
    else none

instance {ε α : Type} [DecidableEq ε] [DecidableEq α] : DecidableEq (Except ε α) := fun a b =>
  match a, b with
  | Except.error e, Except.error f => decidable_of_iff (e = f) (by simp)
  | Except.ok x, Except.ok y => decidable_of_iff (x = y) (by simp)
  | Except.error _, Except.ok _ => Decidable.isFalse (by simp)
  | Except.ok _, Except.error _ => Decidable.isFalse (by simp)

/-- One per-lag entry of a lagged-correlation response. -/
structure LaggedEntry where
  lag : ℕ
  result : Except AnalyticsError CorrelationResult
deriving DecidableEq, Repr

/-- A lagged-correlation response: one entry per lag in [0, maxLag] and the
best lag (maximum |rho| among the computable lags, ties toward smaller lag). -/
structure LaggedResult where
  lags : List LaggedEntry
  bestLag : ℕ
deriving DecidableEq, Repr

/-- Best lag selection: first maximum of |rho| over the successful entries. -/
def selectBestLag (entries : List LaggedEntry) : ℕ :=
  let scored := entries.filterMap fun e =>
    match e.result with
    | Except.ok r => some (e.lag, |r.rho|)
    | Except.error _ => none
  let best := scored.foldl
    (fun acc c =>
      match acc with
      | none => some c
      | some b => if b.2 < c.2 then some c else some b)
    none
  (best.map Prod.fst).getD 0

/-- Modelled from the spec: lagged correlation — for every lag ℓ in [0, maxLag],
the rank correlation of X shifted back by ℓ against Y, plus the best lag. -/
def laggedCorrelation (X Y : Series) (maxLag : ℕ) (lo hi : Int) : LaggedResult :=
  let entries := (List.range (maxLag + 1)).map fun ℓ =>
    LaggedEntry.mk ℓ (spearmanOfPairs (laggedPairs X Y ℓ lo hi))
  { lags := entries, bestLag := selectBestLag entries }

/-- A controlled (partial) correlation result: the correlation fields plus the
list of control-variable names. -/
structure PartialCorrelationResult where
  rho : ℚ
  pValue : ℚ
  n : ℕ
  controlledFor : List String
deriving DecidableEq, Repr

/-- Forget the control list of a partial-correlation result. -/
def PartialCorrelationResult.toCorrelationResult (r : PartialCorrelationResult) :
    CorrelationResult :=
  { rho := r.rho, pValue := r.pValue, n := r.n }

/-- Modelled from the spec: the dated paired samples of X and Y on dates inside
[lo, hi] where X, Y and every control metric are simultaneously non-null. -/
def pairedWithControls (X Y : Series) (controls : List (String × Series)) (lo hi : Int) :
    List (Int × ℚ × ℚ) :=
  Y.filterMap fun p =>
    if (lo ≤ p.1 ∧ p.1 ≤ hi) ∧ ∀ c ∈ controls, (getValue c.2 p.1).isSome = true then
      match p.2, getValue X p.1 with
      | some vy, some vx => some (p.1, vx, vy)
      | _, _ => none
    else none

/-- Center a sample at its mean. -/
def center (xs : List ℚ) : List ℚ := xs.map fun x => x - mean xs

/-- Dot product of two samples. -/
def dot (xs ys : List ℚ) : ℚ := (List.zipWith (· * ·) xs ys).sum

/-- Modelled from the spec: residuals of a sample after linear regression on a
set of control columns (with intercept): the sample is centered, then the
centered controls are removed one after another by least-squares projection.
With no controls this is plain centering. -/
def residualize (xs : List ℚ) (cols : List (List ℚ)) : List ℚ :=
  cols.foldl
    (fun r c =>
      let cc := center c
      let beta := dot r cc / dot cc cc
      List.zipWith (fun ri ci => ri - beta * ci) r cc)
    (center xs)

/-- Modelled from the spec: partial (controlled) correlation — regress X and Y
on the controls, rank-correlate the residuals; degrees of freedom
n − |controls| − 2 must be positive, otherwise InsufficientData. -/
def partialCorrelation (X Y : Series) (controls : List (String × Series)) (lo hi : Int) :
    Except AnalyticsError PartialCorrelationResult :=
  let pts := pairedWithControls X Y controls lo hi
  if ((pts.length : Int) - (controls.length : Int) - 2) ≤ 0 then
    Except.error AnalyticsError.insufficientData
  else
    let dates := pts.map fun t => t.1
    let xs := pts.map fun t => t.2.1
    let ys := pts.map fun t => t.2.2
    let cols := controls.map fun c => dates.map fun d => (getValue c.2 d).getD 0
    let rho := rhoOfLists (residualize xs cols) (residualize ys cols)
    Except.ok
      { rho := rho
        pValue := pValueOfDof rho ((pts.length : Int) - (controls.length : Int) - 2)
        n := pts.length
        controlledFor := controls.map Prod.fst }

/-- One materialized row of derived features for a (metric, date): rolling
means over the calendar windows, rolling sample variances (squares of the
rolling standard deviations, kept squared to stay rational), delta against the
7-day mean, lags 1..7 and the 7-point trend slope — the columns of
`oura_features_daily`, modelled generically for one metric. -/
structure FeatureRow where
  rmean3 : Option ℚ
  rmean7 : Option ℚ
  rmean14 : Option ℚ
  rmean28 : Option ℚ
  svar7 : Option ℚ
  svar14 : Option ℚ
  deltaVsRm7 : Option ℚ
  lags : List (Option ℚ)
  trendSlope7 : Option ℚ
deriving DecidableEq, Repr

/-- Non-null values inside the calendar window [d−w+1, d] (calendar-based:
missing days shrink the sample, never shift the boundary). -/
def windowVals (s : Series) (d : Int) (w : ℕ) : List ℚ :=
  (List.range w).filterMap fun i => getValue s (d - (i : Int))

/-- Rolling mean over a calendar window: needs at least one non-null point. -/
def rollingMean (s : Series) (d : Int) (w : ℕ) : Option ℚ :=
  let vs := windowVals s d w
  if vs.length = 0 then none else some (mean vs)

/-- Rolling sample variance over a calendar window: needs at least two
non-null points (the rolling std is its square root). -/
def rollingSVar (s : Series) (d : Int) (w : ℕ) : Option ℚ :=
  let vs := windowVals s d w
  if vs.length < 2 then none
  else some (((vs.map fun x => (x - mean vs) ^ 2).sum) / ((vs.length : ℚ) - 1))

/-- Delta of the value against the 7-day rolling mean; null if either operand
is null. -/
def deltaVsRm7 (s : Series) (d : Int) : Option ℚ :=
  match getValue s d, rollingMean s d 7 with
  | some v, some m => some (v - m)
  | _, _ => none

/-- The most recent `w` non-null (date, value) points at or before `d`. -/
def recentPoints (s : Series) (d : Int) (w : ℕ) : List (Int × ℚ) :=
  let pts := (s.filterMap fun p => p.2.map fun v => (p.1, v)).filter fun p =>
    decide (p.1 ≤ d)
  (pts.reverse.take w).reverse

/-- Ordinary-least-squares slope of (day index, value) points; null with fewer
than 2 points. -/
def olsSlope (pts : List (Int × ℚ)) : Option ℚ :=
  if pts.length < 2 then none
  else
    let n : ℚ := pts.length
    let sx := (pts.map fun p => (p.1 : ℚ)).sum
    let sy := (pts.map fun p => p.2).sum
    let sxy := (pts.map fun p => (p.1 : ℚ) * p.2).sum
    let sxx := (pts.map fun p => (p.1 : ℚ) ^ 2).sum
    some ((n * sxy - sx * sy) / (n * sxx - sx ^ 2))

/-- Modelled from the spec: the derived feature row of one metric on one date
(`pipelines/features.py` is absent from the repository); every feature is a
pure function of the raw series, strictly causal. -/
def computeRow (s : Series) (d : Int) : FeatureRow :=
  { rmean3 := rollingMean s d 3
    rmean7 := rollingMean s d 7
    rmean14 := rollingMean s d 14
    rmean28 := rollingMean s d 28
    svar7 := rollingSVar s d 7
    svar14 := rollingSVar s d 14
    deltaVsRm7 := deltaVsRm7 s d
    lags := (List.range 7).map fun i => getValue s (d - ((i : Int) + 1))
    trendSlope7 := olsSlope (recentPoints s d 7) }

/-- The feature store: one optional row per date (the `oura_features_daily`
table for one metric). -/
abbrev FeatureStore := Int → Option FeatureRow

/-- Modelled from the spec: batch feature recomputation over [lo, hi] —
creates/overwrites one row per recorded date in range, each row a pure
function of the raw series; rows outside the range are untouched. -/
def computeFeaturesBatch (s : Series) (lo hi : Int) (store : FeatureStore) : FeatureStore :=
  fun d =>
    if lo ≤ d ∧ d ≤ hi ∧ (s.lookup d).isSome = true then some (computeRow s d)
    else store d

/-- Side of an anomaly relative to the baseline mean. -/
inductive AnomalySide
  | high
  | low
deriving DecidableEq, Repr

/-- A flagged anomaly: position, value, squared z-score (kept squared to stay
rational; the reported z is its square root with the direction's sign) and
direction. -/
structure Anomaly where
  index : ℕ
  value : ℚ
  zSq : ℚ
  direction : AnomalySide
deriving DecidableEq, Repr

/-- Modelled from the spec: z-score anomaly detection against the full-history
baseline (§9 of the spec leaves the baseline window open; the global baseline
is the documented choice here).  A point is flagged when |z| ≥ threshold,
checked as (value − mean)² ≥ threshold²·variance to avoid the square root, and
a zero-variance baseline flags nothing — the division by the baseline is
guarded behind 0 < variance. -/
def anomalies (xs : List ℚ) (threshold : ℚ) : List Anomaly :=
  let m := mean xs
  let v := varPop xs
  xs.enum.filterMap fun p =>
    if 0 < v ∧ threshold ^ 2 * v ≤ (p.2 - m) ^ 2 then
      some
        { index := p.1
          value := p.2
          zSq := (p.2 - m) ^ 2 / v
          direction := if m < p.2 then AnomalySide.high else AnomalySide.low }
    else none

/-- The days of [lo, hi] as an explicit list. -/
def rangeDates (lo hi : Int) : List Int :=
  (List.range (hi - lo + 1).toNat).map fun i => lo + (i : Int)

/-- ISO-week index of a day: dates are day indices with day 0 a Monday, so
Monday-starting weeks are the floor-division blocks of 7. -/
def weekOf (d : Int) : Int := Int.fdiv d 7

/-- Weekly mean of one feature series over the days of week `w` inside
[lo, hi]; null when the week has no non-null value. -/
def weekMean (f : Series) (w lo hi : Int) : Option ℚ :=
  let vs := ((rangeDates lo hi).filter fun d => decide (weekOf d = w)).filterMap (getValue f)
  if vs.length = 0 then none else some (mean vs)

/-- The weeks of [lo, hi] (first-occurrence order) on which every chosen
feature has at least one value. -/
def usableWeeks (features : List Series) (lo hi : Int) : List Int :=
  (((rangeDates lo hi).map weekOf).dedup).filter fun w =>
    features.all fun f => (weekMean f w lo hi).isSome

/-- Standardize a column across weeks: subtract the mean, divide by the
population variance (the rational stand-in for the standard deviation; a
zero-variance column maps to all zeros since ℚ division by zero is zero). -/
def standardizeCol (col : List ℚ) : List ℚ :=
  col.map fun x => (x - mean col) / varPop col

/-- Squared euclidean distance between two feature vectors. -/
def distSq (p q : List ℚ) : ℚ := (List.zipWith (fun a b => (a - b) ^ 2) p q).sum

/-- One step of the deterministic linear congruential generator used for
seeding. -/
def lcg (n : ℕ) : ℕ := (1103515245 * n + 12345) % 2147483648

/-- Index of the nearest center (ties toward the smaller index). -/
def nearestCenter (cs : List (List ℚ)) (p : List ℚ) : ℕ :=
  ((cs.enum.argmin fun ic => distSq ic.2 p).map Prod.fst).getD 0

/-- Per-coordinate mean of a group of vectors of dimension `dim`. -/
def meanVec (dim : ℕ) (grp : List (List ℚ)) : List ℚ :=
  (List.range dim).map fun j => mean (grp.map fun v => v.getD j 0)

/-- One Lloyd iteration: assign every point to its nearest center, then move
each center to the mean of its points (an empty cluster keeps its center). -/
def kmeansStep (dim : ℕ) (points : List (List ℚ)) (cs : List (List ℚ)) : List (List ℚ) :=
  cs.enum.map fun ic =>
    let grp := points.filter fun p => decide (nearestCenter cs p = ic.1)
    if grp.isEmpty then ic.2 else meanVec dim grp

/-- Iterate the Lloyd step a fixed number of times. -/
def kmeansIter (dim : ℕ) (points : List (List ℚ)) : ℕ → List (List ℚ) → List (List ℚ)
  | 0, cs => cs
  | t + 1, cs => kmeansIter dim points t (kmeansStep dim points cs)

/-- Deterministically seeded initial centers: `k` points picked by successive
LCG draws from the seed. -/
def initialCenters (seed k : ℕ) (points : List (List ℚ)) : List (List ℚ) :=
  (List.range k).map fun i => points.getD (lcg^[i + 1] seed % points.length) []

/-- A weekly cluster assignment (ISO week index, cluster id). -/
structure WeekAssignment where
  week : Int
  cluster : ℕ
deriving DecidableEq, Repr

/-- A weekly clustering response: assignments plus per-cluster de-standardized
feature profiles. -/
structure ClusterResult where
  weeks : List WeekAssignment
  profiles : List (ℕ × List ℚ)
deriving DecidableEq, Repr

/-- Modelled from the spec: weekly clustering — aggregate the feature series
into ISO-week means, standardize each feature across weeks, run k-means with
deterministic seeding (k must lie in [2, 10], else InvalidParameter), report a
cluster per week and de-standardized per-cluster profiles.  Every step is a
pure function of (features, range, seed, k). -/
def weeklyClusters (features : List Series) (lo hi : Int) (seed k : ℕ) :
    Except AnalyticsError ClusterResult :=
  if k < 2 ∨ 10 < k then Except.error AnalyticsError.invalidParameter
  else
    let weeks := usableWeeks features lo hi
    let dim := features.length
    let rawCols := features.map fun f => weeks.map fun w => (weekMean f w lo hi).getD 0
    let stdCols := rawCols.map standardizeCol
    let points := (List.range weeks.length).map fun i => stdCols.map fun c => c.getD i 0
    let cs := kmeansIter dim points 20 (initialCenters seed k points)
    let assign := points.map (nearestCenter cs)
    Except.ok
      { weeks := (weeks.zip assign).map fun p => { week := p.1, cluster := p.2 }
        profiles := cs.enum.map fun ic =>
          (ic.1, (ic.2.zip rawCols).map fun zc => zc.1 * varPop zc.2 + mean zc.2) }

/-- The maxLag validation of LaggedCorrelationRequest in
`packages/shared/src/schemas.ts`:
`maxLag: z.number().int().min(1).max(14).default(7)` — an omitted field gets
the default 7; a supplied JSON number (modelled as a rational) must be an
integer between 1 and 14 inclusive, anything else is rejected. -/
def parseMaxLag : Option ℚ → Except String ℚ
  | none => Except.ok 7
  | some q =>
    if q.den = 1 ∧ 1 ≤ q ∧ q ≤ 14 then Except.ok q
    else Except.error "Invalid maxLag"

/-- Claim C5: batch feature computation is idempotent — rerunning it over the
identical raw series, range and resulting store changes nothing: every derived
row is a pure function of the raw series in range. -/
theorem computeFeaturesBatch_idempotent (s : Series) (lo hi : Int) (store : FeatureStore) :
    computeFeaturesBatch s lo hi (computeFeaturesBatch s lo hi store) =
      computeFeaturesBatch s lo hi store := by
  funext d
  unfold computeFeaturesBatch
  by_cases h : lo ≤ d ∧ d ≤ hi ∧ (s.lookup d).isSome = true
  · rw [if_pos h, if_pos h]
  · rw [if_neg h, if_neg h]

/-- Claim C8: when the baseline variance (the square of the baseline standard
deviation) is zero, anomaly detection flags nothing for any threshold — the
zero-variance guard precedes any z-score division. -/
theorem anomalies_zero_variance (xs : List ℚ) (threshold : ℚ) (h : varPop xs = 0) :
    anomalies xs threshold = [] := by
  unfold anomalies
  rw [h]
  apply List.filterMap_eq_nil_iff.mpr
  intro p _
  simp

theorem anomalies_zero_variance_witness :
    varPop [0, 0, 0] = 0 ∧ anomalies [0, 0, 0] 3 = [] :=
  ⟨by simp [varPop, mean], anomalies_zero_variance [0, 0, 0] 3 (by simp [varPop, mean])⟩

/-- Claim C9: weekly clustering is deterministic within one seed — two runs on
identical feature sets, ranges, seeds and a cluster count in [2, 10] produce
identical week-to-cluster assignments and profiles. -/
theorem weeklyClusters_deterministic (f1 f2 : List Series) (lo hi : Int) (seed k : ℕ)
    (hf : f1 = f2) (_hk2 : 2 ≤ k) (_hk10 : k ≤ 10) :
    weeklyClusters f1 lo hi seed k = weeklyClusters f2 lo hi seed k := by
  rw [hf]

theorem weeklyClusters_deterministic_witness :
    ([([(0, some 1), (7, some 3)] : Series)] = [([(0, some 1), (7, some 3)] : Series)]) ∧
      2 ≤ 2 ∧ 2 ≤ 10 ∧
      weeklyClusters [[(0, some 1), (7, some 3)]] 0 13 1 2 =
        weeklyClusters [[(0, some 1), (7, some 3)]] 0 13 1 2 :=
  ⟨rfl, by decide, by decide,
    weeklyClusters_deterministic [[(0, some 1), (7, some 3)]] [[(0, some 1), (7, some 3)]]
      0 13 1 2 rfl (by decide) (by decide)⟩

/-- Claim C10: the shared LaggedCorrelationRequest schema accepts maxLag only
as an integer in [1, 14], substitutes 7 when the field is omitted, and rejects
every other value. -/
theorem parseMaxLag_valid (q : ℚ) :
    parseMaxLag none = Except.ok 7 ∧
      (parseMaxLag (some q) = Except.ok q ↔ q.den = 1 ∧ 1 ≤ q ∧ q ≤ 14) ∧
      (¬(q.den = 1 ∧ 1 ≤ q ∧ q ≤ 14) → parseMaxLag (some q) = Except.error "Invalid maxLag") := by
  refine ⟨rfl, ?_, ?_⟩
  · by_cases h : q.den = 1 ∧ 1 ≤ q ∧ q ≤ 14
    · simp [parseMaxLag, h]
    · simp [parseMaxLag, h]
  · intro h
    simp [parseMaxLag, h]

theorem parseMaxLag_valid_witness :
    (parseMaxLag none = Except.ok 7 ∧
      (parseMaxLag (some (1 / 2)) = Except.ok (1 / 2) ↔
        (1 / 2 : ℚ).den = 1 ∧ 1 ≤ (1 / 2 : ℚ) ∧ (1 / 2 : ℚ) ≤ 14) ∧
      (¬((1 / 2 : ℚ).den = 1 ∧ 1 ≤ (1 / 2 : ℚ) ∧ (1 / 2 : ℚ) ≤ 14) →
        parseMaxLag (some (1 / 2)) = Except.error "Invalid maxLag")) ∧
      parseMaxLag (some (1 / 2)) = Except.error "Invalid maxLag" :=
  ⟨parseMaxLag_valid (1 / 2), (parseMaxLag_valid (1 / 2)).2.2 (by simp)⟩

/-- Claim C7: for every lag depth k in [1, 7] the lag-k feature of a derived
row at date d is exactly the raw value at date d − k when that date is
recorded with a non-null value, and null otherwise (`getValue` is a raw
lookup; nothing is interpolated). -/
theorem computeRow_lag_feature (s : Series) (d : Int) (k : ℕ) (h1 : 1 ≤ k) (h7 : k ≤ 7) :
    (computeRow s d).lags.get? (k - 1) = some (getValue s (d - (k : Int))) := by
  have hl : (computeRow s d).lags =
      [getValue s (d - 1), getValue s (d - 2), getValue s (d - 3), getValue s (d - 4),
        getValue s (d - 5), getValue s (d - 6), getValue s (d - 7)] := by
    show ((List.range 7).map fun i => getValue s (d - ((i : Int) + 1))) = _
    rw [show List.range 7 = [0, 1, 2, 3, 4, 5, 6] from rfl]
    norm_num
  rw [hl]
  interval_cases k <;> norm_num [List.get?]

theorem computeRow_lag_feature_witness :
    1 ≤ 3 ∧ 3 ≤ 7 ∧
      (computeRow [(4, some 9)] 7).lags.get? (3 - 1) = some (getValue [(4, some 9)] (7 - (3 : ℕ))) :=
  ⟨by decide, by decide, computeRow_lag_feature [(4, some 9)] 7 3 (by decide) (by decide)⟩

/-- Claim C6: rank correlation fails with InsufficientData exactly when the
count n of dates where both series are simultaneously non-null in range is
below 3; when n ≥ 3 it returns a result reporting that n. -/
theorem rankCorrelation_insufficient_iff (X Y : Series) (lo hi : Int) :
    (rankCorrelation X Y lo hi = Except.error AnalyticsError.insufficientData ↔
      (pairedValues X Y lo hi).length < 3) ∧
    (3 ≤ (pairedValues X Y lo hi).length →
      ∃ r, rankCorrelation X Y lo hi = Except.ok r ∧ r.n = (pairedValues X Y lo hi).length) := by
  constructor
  · by_cases h : (pairedValues X Y lo hi).length < 3
    · simp [rankCorrelation, spearmanOfPairs, h]
    · simp [rankCorrelation, spearmanOfPairs, h]
  · intro h3
    have h : ¬(pairedValues X Y lo hi).length < 3 := by omega
    have he : rankCorrelation X Y lo hi = Except.ok
        { rho := rhoOfLists ((pairedValues X Y lo hi).map Prod.fst)
            ((pairedValues X Y lo hi).map Prod.snd)
          pValue := pValueOfDof
            (rhoOfLists ((pairedValues X Y lo hi).map Prod.fst)
              ((pairedValues X Y lo hi).map Prod.snd))
            (((pairedValues X Y lo hi).length : Int) - 2)
          n := (pairedValues X Y lo hi).length } := by
      unfold rankCorrelation spearmanOfPairs
      rw [if_neg h]
    exact ⟨_, he, rfl⟩

theorem rankCorrelation_insufficient_iff_witness :
    3 ≤ (pairedValues [(0, some 1), (1, some 2), (2, some 5)]
          [(0, some 2), (1, some 1), (2, some 4)] 0 9).length ∧
      ∃ r, rankCorrelation [(0, some 1), (1, some 2), (2, some 5)]
          [(0, some 2), (1, some 1), (2, some 4)] 0 9 = Except.ok r ∧
        r.n = (pairedValues [(0, some 1), (1, some 2), (2, some 5)]
          [(0, some 2), (1, some 1), (2, some 4)] 0 9).length :=
  ⟨by decide,
    (rankCorrelation_insufficient_iff [(0, some 1), (1, some 2), (2, some 5)]
      [(0, some 2), (1, some 1), (2, some 4)] 0 9).2 (by decide)⟩

theorem laggedPairs_zero (X Y : Series) (lo hi : Int) :
    laggedPairs X Y 0 lo hi = pairedValues X Y lo hi := by
  unfold laggedPairs pairedValues
  apply List.filterMap_congr
  intro p _
  norm_num

/-- Claim C2: for every max lag L ≥ 1 the lag-0 entry of the lagged
correlation of X against Y is exactly the plain rank correlation of X and Y
(same rho, p-value and n) as computed by `rankCorrelations`. -/
theorem laggedCorrelation_lag_zero (X Y : Series) (maxLag : ℕ) (lo hi : Int)
    (hL : 1 ≤ maxLag) :
    (laggedCorrelation X Y maxLag lo hi).lags.head? =
        some (LaggedEntry.mk 0 (rankCorrelation X Y lo hi)) ∧
      rankCorrelations X [Y] lo hi = [rankCorrelation X Y lo hi] := by
  refine ⟨?_, rfl⟩
  obtain ⟨m, rfl⟩ : ∃ m, maxLag = m + 1 := ⟨maxLag - 1, by omega⟩
  show (((List.range (m + 1 + 1)).map fun ℓ =>
      LaggedEntry.mk ℓ (spearmanOfPairs (laggedPairs X Y ℓ lo hi))).head?) = _
  rw [List.range_succ_eq_map, List.map_cons, List.head?_cons, laggedPairs_zero]
  rfl

theorem laggedCorrelation_lag_zero_witness :
    1 ≤ 2 ∧
      ((laggedCorrelation [(0, some 1)] [(0, some 2)] 2 0 9).lags.head? =
          some (LaggedEntry.mk 0 (rankCorrelation [(0, some 1)] [(0, some 2)] 0 9)) ∧
        rankCorrelations [(0, some 1)] [[(0, some 2)]] 0 9 =
          [rankCorrelation [(0, some 1)] [(0, some 2)] 0 9]) :=
  ⟨by decide, laggedCorrelation_lag_zero [(0, some 1)] [(0, some 2)] 2 0 9 (by decide)⟩

theorem pairedWithControls_nil (X Y : Series) (lo hi : Int) :
    (pairedWithControls X Y [] lo hi).map (fun t => (t.2.1, t.2.2)) = pairedValues X Y lo hi := by
  unfold pairedWithControls pairedValues
  rw [List.map_filterMap]
  apply List.filterMap_congr
  intro p _
  by_cases h : lo ≤ p.1 ∧ p.1 ≤ hi
  · simp only [h, List.not_mem_nil, false_implies, implies_true, and_true, if_true, true_and]
    cases p.2 <;> cases getValue X p.1 <;> rfl
  · simp [h]

theorem rankAvg_sub (xs : List ℚ) (a x : ℚ) :
    rankAvg (xs.map fun y => y - a) (x - a) = rankAvg xs x := by
  have h1 : (xs.map fun y => y - a).countP (fun y => decide (y < x - a)) =
      xs.countP fun y => decide (y < x) := by
    rw [List.countP_map]
    apply List.countP_congr
    intro y _
    simp [sub_lt_sub_iff_right]
  have h2 : (xs.map fun y => y - a).countP (fun y => decide (y = x - a)) =
      xs.countP fun y => decide (y = x) := by
    rw [List.countP_map]
    apply List.countP_congr
    intro y _
    simp [sub_left_inj]
  unfold rankAvg
  rw [h1, h2]

theorem ranks_sub (xs : List ℚ) (a : ℚ) : ranks (xs.map fun y => y - a) = ranks xs := by
  unfold ranks
  rw [List.map_map]
  apply List.map_congr_left
  intro x _
  exact rankAvg_sub xs a x

theorem rhoOfLists_sub (xs ys : List ℚ) (a b : ℚ) :
    rhoOfLists (xs.map fun y => y - a) (ys.map fun y => y - b) = rhoOfLists xs ys := by
  unfold rhoOfLists
  rw [ranks_sub, ranks_sub, List.length_map]

/-- Claim C3: partial correlation with an empty control list coincides with
the plain rank correlation of X and Y on the same range — same rho, p-value
and n (and the same InsufficientData behaviour, since the degrees of freedom
n − 0 − 2 are positive exactly when n ≥ 3). -/
theorem partialCorrelation_empty_controls (X Y : Series) (lo hi : Int) :
    (partialCorrelation X Y [] lo hi).map PartialCorrelationResult.toCorrelationResult =
      rankCorrelation X Y lo hi := by
  have hmap := pairedWithControls_nil X Y lo hi
  have hlen : (pairedWithControls X Y [] lo hi).length = (pairedValues X Y lo hi).length := by
    rw [← hmap, List.length_map]
  have hxs : (pairedWithControls X Y [] lo hi).map (fun t => t.2.1) =
      (pairedValues X Y lo hi).map Prod.fst := by
    rw [← hmap, List.map_map]
    rfl
  have hys : (pairedWithControls X Y [] lo hi).map (fun t => t.2.2) =
      (pairedValues X Y lo hi).map Prod.snd := by
    rw [← hmap, List.map_map]
    rfl
  unfold partialCorrelation rankCorrelation spearmanOfPairs
  by_cases h : (pairedValues X Y lo hi).length < 3
  · rw [if_pos (by push_cast [hlen, List.length_nil]; omega), if_pos h]
    rfl
  · rw [if_neg (by push_cast [hlen, List.length_nil]; omega), if_neg h]
    show Except.ok _ = Except.ok _
    congr 1
    unfold PartialCorrelationResult.toCorrelationResult residualize
    simp only [List.map_nil, List.foldl_nil, List.length_nil]
    unfold center
    rw [rhoOfLists_sub, hxs, hys, hlen]
    norm_num

theorem partialCorrelation_empty_controls_witness :
    (partialCorrelation [(0, some 1), (1, some 2), (2, some 5)]
        [(0, some 2), (1, some 1), (2, some 4)] [] 0 9).map
        PartialCorrelationResult.toCorrelationResult =
      rankCorrelation [(0, some 1), (1, some 2), (2, some 5)]
        [(0, some 2), (1, some 1), (2, some 4)] 0 9 :=
  partialCorrelation_empty_controls [(0, some 1), (1, some 2), (2, some 5)]
    [(0, some 2), (1, some 1), (2, some 4)] 0 9

theorem bestPartFuel_nil (P : ℚ) (fuel : ℕ) : bestPartFuel P fuel [] = [] := by
  cases fuel <;> rfl

theorem isPartition_zero {ls : List ℕ} (h : IsPartition 0 ls) : ls = [] := by
  rcases h with ⟨hpos, hsum⟩
  cases ls with
  | nil => rfl
  | cons a l =>
    have ha := hpos a (List.mem_cons_self a l)
    simp only [List.sum_cons] at hsum
    omega

theorem isPartition_ne_nil {n : ℕ} (hn : 0 < n) {ls : List ℕ} (h : IsPartition n ls) :
    ls ≠ [] := by
  intro he
  subst he
  rcases h with ⟨-, hsum⟩
  simp only [List.sum_nil] at hsum
  omega

theorem bestPartFuel_cons (P : ℚ) (fuel : ℕ) (y : ℚ) (ys : List ℚ) :
    bestPartFuel P (fuel + 1) (y :: ys) =
      (((List.range (y :: ys).length).map fun i =>
        (i + 1) :: bestPartFuel P fuel ((y :: ys).drop (i + 1))).argmin
          (partCost P (y :: ys))).getD [(y :: ys).length] := rfl

theorem partCost_single (P : ℚ) (xs : List ℚ) (ℓ : ℕ) :
    partCost P xs [ℓ] = segCost (xs.take ℓ) := by
  simp [partCost, segSum]

theorem partCost_cons_of_ne (P : ℚ) (xs : List ℚ) (ℓ : ℕ) {ls : List ℕ} (h : ls ≠ []) :
    partCost P xs (ℓ :: ls) = segCost (xs.take ℓ) + P + partCost P (xs.drop ℓ) ls := by
  rcases List.exists_cons_of_ne_nil h with ⟨a, l, rfl⟩
  simp only [partCost, segSum, List.length_cons]
  push_cast [Nat.add_sub_cancel]
  ring

theorem bestPartFuel_partition (P : ℚ) :
    ∀ (fuel : ℕ) (xs : List ℚ), xs.length ≤ fuel →
      IsPartition xs.length (bestPartFuel P fuel xs) := by
  intro fuel
  induction fuel with
  | zero =>
    intro xs hx
    have hxe : xs = [] := List.length_eq_zero.mp (Nat.le_zero.mp hx)
    subst hxe
    rw [bestPartFuel_nil]
    exact ⟨by simp, rfl⟩
  | succ fuel ih =>
    intro xs hx
    cases xs with
    | nil =>
      rw [bestPartFuel_nil]
      exact ⟨by simp, rfl⟩
    | cons y ys =>
      rw [bestPartFuel_cons]
      have hne : ((List.range (y :: ys).length).map fun i =>
          (i + 1) :: bestPartFuel P fuel ((y :: ys).drop (i + 1))) ≠ [] := by
        simp [List.range_succ_eq_map]
      obtain ⟨c, hc⟩ : ∃ c, ((List.range (y :: ys).length).map fun i =>
          (i + 1) :: bestPartFuel P fuel ((y :: ys).drop (i + 1))).argmin
            (partCost P (y :: ys)) = some c := by
        cases hm : ((List.range (y :: ys).length).map fun i =>
            (i + 1) :: bestPartFuel P fuel ((y :: ys).drop (i + 1))).argmin
              (partCost P (y :: ys)) with
        | none => exact absurd (List.argmin_eq_none.mp hm) hne
        | some c => exact ⟨c, rfl⟩
      rw [hc, Option.getD_some]
      have hmem : c ∈ ((List.range (y :: ys).length).map fun i =>
          (i + 1) :: bestPartFuel P fuel ((y :: ys).drop (i + 1))) :=
        List.argmin_mem hc
      obtain ⟨i, hi, hceq⟩ := List.mem_map.mp hmem
      have hilt : i < (y :: ys).length := List.mem_range.mp hi
      have hfuel : ((y :: ys).drop (i + 1)).length ≤ fuel := by
        rw [List.length_drop]
        omega
      have htail := ih ((y :: ys).drop (i + 1)) hfuel
      rw [List.length_drop] at htail
      subst hceq
      refine ⟨?_, ?_⟩
      · intro ℓ hℓ
        rcases List.mem_cons.mp hℓ with h1 | h2
        · omega
        · exact htail.1 ℓ h2
      · simp only [List.sum_cons, htail.2]
        omega

theorem bestPartFuel_optimal (P : ℚ) :
    ∀ (fuel : ℕ) (xs : List ℚ) (q : List ℕ), xs.length ≤ fuel → IsPartition xs.length q →
      partCost P xs (bestPartFuel P fuel xs) ≤ partCost P xs q := by
  intro fuel
  induction fuel with
  | zero =>
    intro xs q hx hq
    have hxe : xs = [] := List.length_eq_zero.mp (Nat.le_zero.mp hx)
    subst hxe
    have hqe : q = [] := isPartition_zero (by simpa using hq)
    subst hqe
    exact le_refl _
  | succ fuel ih =>
    intro xs q hx hq
    cases xs with
    | nil =>
      have hqe : q = [] := isPartition_zero (by simpa using hq)
      subst hqe
      rw [bestPartFuel_nil]
    | cons y ys =>
      have hn0 : 0 < (y :: ys).length := by simp
      obtain ⟨ℓ, q1, rfl⟩ : ∃ ℓ q1, q = ℓ :: q1 := by
        cases q with
        | nil => exact absurd rfl (isPartition_ne_nil hn0 hq)
        | cons a b => exact ⟨a, b, rfl⟩
      obtain ⟨hqpos, hqsum⟩ := hq
      simp only [List.sum_cons] at hqsum
      have hℓpos : 0 < ℓ := hqpos ℓ (List.mem_cons_self ℓ q1)
      have hℓle : ℓ ≤ (y :: ys).length := by omega
      rw [bestPartFuel_cons]
      obtain ⟨c, hc⟩ : ∃ c, ((List.range (y :: ys).length).map fun i =>
          (i + 1) :: bestPartFuel P fuel ((y :: ys).drop (i + 1))).argmin
            (partCost P (y :: ys)) = some c := by
        cases hm : ((List.range (y :: ys).length).map fun i =>
            (i + 1) :: bestPartFuel P fuel ((y :: ys).drop (i + 1))).argmin
              (partCost P (y :: ys)) with
        | none =>
          exact absurd (List.argmin_eq_none.mp hm) (by simp [List.range_succ_eq_map])
        | some c => exact ⟨c, rfl⟩
      rw [hc, Option.getD_some]
      have hcand : (ℓ :: bestPartFuel P fuel ((y :: ys).drop ℓ)) ∈
          ((List.range (y :: ys).length).map fun i =>
            (i + 1) :: bestPartFuel P fuel ((y :: ys).drop (i + 1))) := by
        apply List.mem_map.mpr
        refine ⟨ℓ - 1, List.mem_range.mpr (by omega), ?_⟩
        rw [show ℓ - 1 + 1 = ℓ from by omega]
      have hle1 : partCost P (y :: ys) c ≤
          partCost P (y :: ys) (ℓ :: bestPartFuel P fuel ((y :: ys).drop ℓ)) :=
        List.le_of_mem_argmin hcand hc
      refine le_trans hle1 ?_
      by_cases hq1 : q1 = []
      · subst hq1
        have hℓn : ℓ = (y :: ys).length := by
          simp only [List.sum_nil] at hqsum
          omega
        rw [hℓn, List.drop_length, bestPartFuel_nil]
      · have hfuel : ((y :: ys).drop ℓ).length ≤ fuel := by
          rw [List.length_drop]
          omega
        have htailpart : IsPartition ((y :: ys).drop ℓ).length q1 := by
          rw [List.length_drop]
          refine ⟨fun a ha => hqpos a (List.mem_cons_of_mem ℓ ha), ?_⟩
          omega
        have hih := ih ((y :: ys).drop ℓ) q1 hfuel htailpart
        have hbp := bestPartFuel_partition P fuel ((y :: ys).drop ℓ) hfuel
        have htailpos : 0 < ((y :: ys).drop ℓ).length := by
          rcases List.exists_cons_of_ne_nil hq1 with ⟨a, b, rfl⟩
          have ha : 0 < a := hqpos a (by simp)
          simp only [List.sum_cons] at hqsum
          rw [List.length_drop]
          omega
        have hbne : bestPartFuel P fuel ((y :: ys).drop ℓ) ≠ [] :=
          isPartition_ne_nil htailpos hbp
        rw [partCost_cons_of_ne P (y :: ys) ℓ hbne, partCost_cons_of_ne P (y :: ys) ℓ hq1]
        linarith [hih]

theorem bestPart_partition (P : ℚ) (xs : List ℚ) : IsPartition xs.length (bestPart P xs) :=
  bestPartFuel_partition P xs.length xs (le_refl _)

theorem bestPart_optimal (P : ℚ) (xs : List ℚ) (q : List ℕ) (hq : IsPartition xs.length q) :
    partCost P xs (bestPart P xs) ≤ partCost P xs q :=
  bestPartFuel_optimal P xs.length xs q (le_refl _) hq

/-- Claim C1: for every series and every penalty P > 0, the segmentation
underlying `changePoints` is a valid partition into contiguous segments whose
cost Σ(within-segment variance × length) + P × (segment count − 1) is a global
minimum over all such partitions. -/
theorem changePoints_segmentation_optimal (xs : List ℚ) (P : ℚ) (_hP : 0 < P)
    (q : List ℕ) (hq : IsPartition xs.length q) :
    IsPartition xs.length (bestPart P xs) ∧
      partCost P xs (bestPart P xs) ≤ partCost P xs q ∧
      changePoints P xs = boundaryPoints 0 (chunksOf xs (bestPart P xs)) :=
  ⟨bestPart_partition P xs, bestPart_optimal P xs q hq, rfl⟩

theorem changePoints_segmentation_optimal_witness :
    0 < (1 : ℚ) ∧ IsPartition ([1, 5] : List ℚ).length [1, 1] ∧
      (IsPartition ([1, 5] : List ℚ).length (bestPart 1 [1, 5]) ∧
        partCost 1 [1, 5] (bestPart 1 [1, 5]) ≤ partCost 1 [1, 5] [1, 1] ∧
        changePoints 1 [1, 5] = boundaryPoints 0 (chunksOf [1, 5] (bestPart 1 [1, 5]))) :=
  ⟨by decide, by decide, changePoints_segmentation_optimal [1, 5] 1 (by decide) [1, 1] (by decide)⟩

theorem length_chunksOf : ∀ (ls : List ℕ) (xs : List ℚ), (chunksOf xs ls).length = ls.length
  | [], _ => rfl
  | ℓ :: ls, xs => by
    simp only [chunksOf, List.length_cons, length_chunksOf ls]

theorem length_boundaryPoints :
    ∀ (cs : List (List ℚ)) (i : ℕ), (boundaryPoints i cs).length = cs.length - 1
  | [], _ => rfl
  | [_], _ => rfl
  | c1 :: c2 :: cs, i => by
    simp only [boundaryPoints, List.length_cons, length_boundaryPoints (c2 :: cs)]
    omega

theorem length_changePoints (P : ℚ) (xs : List ℚ) :
    (changePoints P xs).length = (bestPart P xs).length - 1 := by
  unfold changePoints
  rw [length_boundaryPoints, length_chunksOf]

/-- Claim C4: on a fixed series the number of detected change points is
monotonically non-increasing in the penalty: 0 < P1 ≤ P2 implies the count at
P2 is at most the count at P1. -/
theorem changePoints_count_antitone (xs : List ℚ) (P1 P2 : ℚ) (_h0 : 0 < P1) (h12 : P1 ≤ P2) :
    (changePoints P2 xs).length ≤ (changePoints P1 xs).length := by
  rcases eq_or_lt_of_le h12 with heq | hlt
  · rw [heq]
  · rw [length_changePoints, length_changePoints]
    have hp1 := bestPart_partition P1 xs
    have hp2 := bestPart_partition P2 xs
    have h1 := bestPart_optimal P1 xs (bestPart P2 xs) hp2
    have h2 := bestPart_optimal P2 xs (bestPart P1 xs) hp1
    unfold partCost at h1 h2
    have hcast : ((((bestPart P2 xs).length - 1 : ℕ)) : ℚ) ≤
        (((bestPart P1 xs).length - 1 : ℕ) : ℚ) := by
      by_contra hcon
      push_neg at hcon
      linarith [mul_pos (sub_pos.mpr hlt) (sub_pos.mpr hcon)]
    exact_mod_cast hcast

theorem changePoints_count_antitone_witness :
    0 < (1 : ℚ) ∧ (1 : ℚ) ≤ 2 ∧
      (changePoints 2 [1, 5]).length ≤ (changePoints 1 [1, 5]).length :=
  ⟨by decide, by decide, changePoints_count_antitone [1, 5] 1 2 (by decide) (by decide)⟩

end OuraDash
